import Mathlib

/-!
Shallow embedding of the clDES discrete-event-system core
(src/cldes/DESystem.hpp and
src/libcldes/cldes/src/operations/SuperProxyCore.hpp).

Events are bits of a Nat bitmask (EventsSet, a fixed-width bit vector);
states are Nat indices.  The two Eigen sparse matrices of a DESystem are
embedded as total functions: the labelled graph Gamma as a function
returning the EventsSet bitmask of a cell (0 when the cell is empty, as
Eigen coeff does), and the boolean shadow as a Bool-valued function.
The stored shadow follows the source convention B-transposed-plus-identity:
the constructor sets the identity diagonal and every insertion of an edge
i -> j sets cell (j, i).
-/

/-- A concrete automaton, mirroring the data members of
cldes::DESystem: state count, initial state, marked states, the labelled
adjacency matrix graph_, the boolean shadow bit_graph_, the per-state
forward and inverse event summaries states_events_ / inv_states_events_,
and the global event set events_. -/
structure DES where
  S : Nat
  init : Nat
  marked : Finset Nat
  graph : Nat → Nat → Nat
  bitGraph : Nat → Nat → Bool
  statesEvents : Nat → Nat
  invStatesEvents : Nat → Nat
  events : Nat

/-- The sized DESystem constructor: empty labelled graph, boolean shadow
initialised to the identity (bit_graph_.setIdentity() on an S-by-S
matrix), empty summaries and event set. -/
def DES.new (S q0 : Nat) (M : Finset Nat) : DES :=
  { S := S
    init := q0
    marked := M
    graph := fun _ _ => 0
    bitGraph := fun a b => decide (a = b ∧ a < S)
    statesEvents := fun _ => 0
    invStatesEvents := fun _ => 0
    events := 0 }

/-- Modelled from the spec: the transition-insertion primitive
set_transition(i, j, e) of section 4.2 (the TransitionProxy assignment
operator is not part of the sources).  It adds event e to Gamma[i,j],
sets the shadow cell (j, i) (row = destination, per the stored
B-transposed convention), and updates E, F[i] and F-inverse[j]. -/
def DES.setTrans (A : DES) (i j e : Nat) : DES :=
  { A with
    graph := fun a b => if a = i ∧ b = j then A.graph i j ||| 2 ^ e else A.graph a b
    bitGraph := fun a b => if a = j ∧ b = i then true else A.bitGraph a b
    statesEvents := fun q => if q = i then A.statesEvents i ||| 2 ^ e else A.statesEvents q
    invStatesEvents := fun q => if q = j then A.invStatesEvents j ||| 2 ^ e else A.invStatesEvents q
    events := A.events ||| 2 ^ e }

/-- DESystem::ContainsTrans: states_events_[q].test(e). -/
def DES.containsTrans (A : DES) (q e : Nat) : Bool :=
  (A.statesEvents q).testBit e

/-- DESystem::ContainsInvTrans: inv_states_events_[q].test(e). -/
def DES.containsInvTrans (A : DES) (q e : Nat) : Bool :=
  (A.invStatesEvents q).testBit e

/-- DESystem::Trans: -1 when the forward summary lacks the event,
otherwise the first column of row q (in ascending column order, as the
compressed-row iterator yields) whose label contains e; the trailing
return -1 covers the unreachable fall-through of the source. -/
def DES.trans (A : DES) (q e : Nat) : Int :=
  if (A.statesEvents q).testBit e = false then -1
  else
    match (List.range A.S).find? (fun j => (A.graph q j).testBit e) with
    | some j => (j : Int)
    | none => -1

/-- DESystem::InvTrans.  The inverse graph is an optional cache
(inv_graph_ is a shared pointer that AllocateInvertedGraph fills with the
transpose of graph_ and ClearInvertedGraph nulls); dereferencing it while
unallocated is undefined behaviour, embedded as the none result. -/
def DES.invTrans (A : DES) (invGraph : Option (Nat → Nat → Nat)) (q e : Nat) :
    Option (List Nat) :=
  if A.containsInvTrans q e = false then some []
  else
    match invGraph with
    | none => none
    | some g => some ((List.range A.S).filter (fun j => (g q j).testBit e))

/-- DESystem::InvTrans in the allocated state: inv_graph_ holds the
transpose of graph_, so row q of the inverse graph reads column q of
graph_. -/
def DES.invTransAlloc (A : DES) (q e : Nat) : List Nat :=
  if (A.invStatesEvents q).testBit e = false then []
  else (List.range A.S).filter (fun j => (A.graph j q).testBit e)

/-!  The linear-algebra BFS kernel (DESystem::BfsCalc_).  A sparse
boolean column vector is embedded as the finite set of its lit rows; the
product bit_graph_ * x lights row d whenever some lit s of x has a
nonzero shadow cell (d, s); nonZeros() of such a product is the number
of lit entries.  The caller loops at most S times and stops as soon as
the nonzero count repeats.  -/

/-- One multiplication y = bit_graph_ * x. -/
def bfsStep (A : DES) (x : Finset Nat) : Finset Nat :=
  (Finset.range A.S).filter (fun d => ∃ s ∈ x, A.bitGraph d s = true)

/-- The iteration of BfsCalc_: up to fuel products, breaking when the
nonzero count equals the previous one; the result is the last product
(the loop writes x = y before the next round, so fuel exhaustion returns
the current x, which holds the last y). -/
def bfsLoop (A : DES) : Nat → Finset Nat → Nat → Finset Nat
  | 0, x, _ => x
  | fuel + 1, x, prev =>
      let y := bfsStep A x
      if y.card = prev then y else bfsLoop A fuel y y.card

/-- DESystem::AccessiblePart: BFS from the initial state on the stored
shadow.  With zero states the loop body never runs and the empty initial
product vector is collected. -/
def DES.accessiblePart (A : DES) : Finset Nat :=
  if A.S = 0 then ∅ else bfsLoop A A.S {A.init} 0

/-- One multiplication y = invgraph * x in the coaccessible search,
where invgraph is bit_graph_.transpose() and x carries one column per
marked state: entry (row, column) pairs. -/
def coaccStep (A : DES) (x : Finset (Nat × Nat)) : Finset (Nat × Nat) :=
  (Finset.range A.S ×ˢ Finset.range A.marked.card).filter
    (fun p => ∃ q ∈ x, q.2 = p.2 ∧ A.bitGraph q.1 p.1 = true)

/-- The multi-column loop shared by CoaccessiblePart and TrimStates. -/
def coaccLoop (A : DES) : Nat → Finset (Nat × Nat) → Nat → Finset (Nat × Nat)
  | 0, x, _ => x
  | fuel + 1, x, prev =>
      let y := coaccStep A x
      if y.card = prev then y else coaccLoop A fuel y y.card

/-- The ascending iteration order of a std::set of state indices, all of
which lie below the bound n (states below the state count, events below
the alphabet byte range). -/
def ascList (n : Nat) (s : Finset Nat) : List Nat :=
  (List.range n).filter (fun x => x ∈ s)

/-- The seed matrix of the coaccessible search: one column per marked
state, lit at that state, columns assigned in the ascending iteration
order of the marked std::set. -/
def coaccInit (A : DES) : Finset (Nat × Nat) :=
  ((ascList A.S A.marked).enum.map (fun pc => (pc.2, pc.1))).toFinset

/-- The final matrix of the coaccessible search. -/
def coaccFinal (A : DES) : Finset (Nat × Nat) :=
  if A.S = 0 then ∅ else coaccLoop A A.S (coaccInit A) 0

/-- DESystem::CoaccessiblePart: the rows lit in any column of the final
matrix. -/
def DES.coaccessiblePart (A : DES) : Finset Nat :=
  (coaccFinal A).image Prod.fst

/-- DESystem::TrimStates: the same backward search, keeping only lit
rows that also lie in the accessible part. -/
def DES.trimStates (A : DES) : Finset Nat :=
  let acc := A.accessiblePart
  ((coaccFinal A).filter (fun p => p.1 ∈ acc)).image Prod.fst

/-!  DESystem::Trim.  The statesmap is filled by iterating the trim set
in the ascending order of the std::set, so a surviving old state maps to
its rank in the sorted survivor list.  The triplet build walks the
survivors in that same order with a running row_id, resetting
states_events_[row_id] and inv_states_events_[row_id] at the top of each
row before accumulating the kept labels of that row — exactly as the
source does, including the fact that the reset of a later row discards
inverse contributions already recorded for it by earlier rows.  -/

/-- The statesmap of Trim: rank in the sorted survivor list, -1 for a
dropped state. -/
def smap (t : List Nat) (s : Nat) : Int :=
  if s ∈ t then (t.indexOf s : Int) else -1

/-- The triplet-building loop of Trim.  The accumulator carries the
states_events_ vector, the inv_states_events_ vector, the rebuilt global
event set, the Gamma triplets (row, col, label) and the shadow triplets
(col, row) in emission order. -/
def trimFold (A : DES) (t : List Nat) :
    (Nat → Nat) × (Nat → Nat) × Nat × List (Nat × Nat × Nat) × List (Nat × Nat) :=
  t.enum.foldl
    (fun acc pr =>
      let se0 := Function.update acc.1 pr.1 0
      let ise0 := Function.update acc.2.1 pr.1 0
      (List.range A.S).foldl
        (fun acc2 j =>
          let v := A.graph pr.2 j
          if v ≠ 0 ∧ smap t j ≠ -1 then
            let cj := (smap t j).toNat
            (Function.update acc2.1 pr.1 (acc2.1 pr.1 ||| v),
             Function.update acc2.2.1 cj (acc2.2.1 cj ||| v),
             acc2.2.2.1 ||| v,
             acc2.2.2.2.1 ++ [(pr.1, cj, v)],
             acc2.2.2.2.2 ++ [(cj, pr.1)])
          else acc2)
        (se0, ise0, acc.2.2.1, acc.2.2.2.1, acc.2.2.2.2))
    (A.statesEvents, A.invStatesEvents, 0, [], [])

/-- setFromTriplets for the labelled graph with the duplicate-merge rule
of the spec (union of labels on a repeated coordinate). -/
def setFromTripletsU (tr : List (Nat × Nat × Nat)) (a b : Nat) : Nat :=
  tr.foldl (fun acc p => if p.1 = a ∧ p.2.1 = b then acc ||| p.2.2 else acc) 0

/-- DESystem::Trim.  A no-op when every state survives; otherwise both
matrices are rebuilt from the triplets (note that the shadow triplets
carry no identity diagonal, and that init_state_ is left untouched by
the source), the summary vectors are truncated to the new state count,
and the marked set is pushed through the statesmap. -/
def DES.trim (A : DES) : DES :=
  let T := A.trimStates
  if T.card = A.S then A
  else
    let t := ascList A.S T
    let r := trimFold A t
    { S := t.length
      init := A.init
      marked := (A.marked.filter (fun m => smap t m ≠ -1)).image
        (fun m => (smap t m).toNat)
      graph := fun a b => setFromTripletsU r.2.2.2.1 a b
      bitGraph := fun a b => decide ((a, b) ∈ r.2.2.2.2)
      statesEvents := fun q => if q < t.length then r.1 q else 0
      invStatesEvents := fun q => if q < t.length then r.2.1 q else 0
      events := r.2.2.1 }

/-!  The virtual synchronous product and supervisor synthesis
(op::SuperProxy, src/operations/SuperProxyCore.hpp).  The SyncSysProxy
transition functions themselves are not among the sources, so they are
modelled from the spec (section 4.3); everything else below follows
SuperProxyCore.hpp.  The plant is sys0_ and the specification sys1_, so
n_states_sys0_ is the plant state count and the virtual state y * S_P + x
pairs plant state x with specification state y.  -/

/-- Modelled from the spec: the SyncSysProxy forward transition function
of section 4.3.  A shared event needs both components to enable it and
moves both; an only-in-plant event consults and moves the plant alone;
an only-in-spec event consults and moves the specification alone; any
other event is disabled. -/
def vpTrans (P E : DES) (q e : Nat) : Int :=
  let x := q % P.S
  let y := q / P.S
  let inBoth := P.events &&& E.events
  let onlyP := P.events ^^^ inBoth
  let onlyE := E.events ^^^ inBoth
  if inBoth.testBit e then
    if P.containsTrans x e = true ∧ E.containsTrans y e = true then
      E.trans y e * (P.S : Int) + P.trans x e
    else -1
  else if onlyP.testBit e then
    if P.containsTrans x e = true then (y : Int) * (P.S : Int) + P.trans x e else -1
  else if onlyE.testBit e then
    if E.containsTrans y e = true then E.trans y e * (P.S : Int) + (x : Int) else -1
  else -1

/-- Modelled from the spec: the SyncSysProxy inverse transition function
of section 4.3, used with the operand inverse graphs allocated — the
Cartesian product of the component predecessor lists, a component
contributing its own state when the event is outside its alphabet. -/
def vpInvTrans (P E : DES) (q e : Nat) : List Nat :=
  let x := q % P.S
  let y := q / P.S
  let xs := if P.events.testBit e then P.invTransAlloc x e else [x]
  let ys := if E.events.testBit e then E.invTransAlloc y e else [y]
  ys.flatMap (fun y2 => xs.map (fun x2 => y2 * P.S + x2))

/-- The restriction of the uncontrollable set to the plant alphabet as a
bitmask: findRemovedStates_ sets p_non_contr_bit on each event of
aNonContr present in the plant event set (the hash-set iteration order
is irrelevant to the resulting mask; the sorted order is used here). -/
def pncMask (P : DES) (U : Finset Nat) : Nat :=
  ((ascList 256 U).filter (fun ev => P.events.testBit ev)).foldl
    (fun m ev => m ||| 2 ^ ev) 0

/-- The further restriction to the product alphabet (non_contr_bit):
events of aNonContr in the plant event set and in the product event
set. -/
def ncMask (P E : DES) (U : Finset Nat) : Nat :=
  ((ascList 256 U).filter
      (fun ev => P.events.testBit ev && (P.events ||| E.events).testBit ev)).foldl
    (fun m ev => m ||| 2 ^ ev) 0

/-- The locally-bad test of findRemovedStates_: some event below the
alphabet width is uncontrollable-in-plant, enabled by the plant at the
plant component of q, and disabled in the virtual product at q. -/
def badState (N : Nat) (P E : DES) (pnc : Nat) (q : Nat) : Bool :=
  (List.range N).any (fun e =>
    pnc.testBit e && decide (P.trans (q % P.S) e ≠ -1) &&
      decide (vpTrans P E q e = -1))

/-- Modelled from the spec: removeBadStates (section 4.4) — the backward
closure over uncontrollable events.  The seed goes into the removed set;
each popped state contributes its uncontrollable virtual predecessors
not yet removed, which are moved out of the surviving set, into the
removed set and onto the stack.  Fuel exhaustion yields none. -/
def removeBad (N : Nat) (P E : DES) (nc : Nat) :
    Nat → List Nat → Finset Nat → Finset Nat → Option (Finset Nat × Finset Nat)
  | 0, _, _, _ => none
  | _ + 1, [], R, V => some (R, V)
  | fuel + 1, q :: st, R, V =>
      let preds :=
        (((List.range N).filter (fun e => nc.testBit e)).flatMap
            (fun e => vpInvTrans P E q e)).filter (fun p => p ∉ R)
      removeBad N P E nc fuel (preds ++ st)
        (preds.foldl (fun r p => insert p r) R)
        (preds.foldl (fun v p => v.erase p) V)

/-- The successors pushed after a good state q is inserted: for each
event in ascending order, the enabled virtual successor, skipped when it
is already removed or surviving; the ascending pushes leave the last
event on top of the LIFO stack, hence the reversal. -/
def succList (N : Nat) (P E : DES) (R V : Finset Nat) (q : Nat) : List Nat :=
  ((List.range N).filterMap (fun e =>
      let t := vpTrans P E q e
      if t ≠ -1 ∧ t.toNat ∉ R ∧ t.toNat ∉ V then some t.toNat else none)).reverse

/-- The depth-first loop of findRemovedStates_: pop q; skip it when
already removed or surviving; remove the uncontrollable backward closure
when it is locally bad; otherwise keep it and push its successors.  Fuel
exhaustion yields none; an emptied stack yields the surviving set. -/
def phase1Loop (N : Nat) (P E : DES) (pnc nc : Nat) :
    Nat → List Nat → Finset Nat → Finset Nat → Option (Finset Nat)
  | 0, _, _, _ => none
  | _ + 1, [], _, V => some V
  | fuel + 1, q :: f, R, V =>
      if q ∈ R ∨ q ∈ V then phase1Loop N P E pnc nc fuel f R V
      else if badState N P E pnc q then
        match removeBad N P E nc fuel [q] (insert q R) V with
        | none => none
        | some RV => phase1Loop N P E pnc nc fuel f RV.1 RV.2
      else
        phase1Loop N P E pnc nc fuel (succList N P E R (insert q V) q ++ f) R
          (insert q V)

/-- Phase 1 of supC (SuperProxy::findRemovedStates_): the masks are
built from the uncontrollable set, the stack starts at the virtual
initial state q0_E * S_P + q0_P, and the surviving virtual state set is
returned. -/
def phase1 (N : Nat) (P E : DES) (U : Finset Nat) (fuel : Nat) : Option (Finset Nat) :=
  phase1Loop N P E (pncMask P U) (ncMask P E U) fuel [E.init * P.S + P.init] ∅ ∅

/-- SuperProxy::trans_impl: -1 when q is not a surviving virtual state
or the event lies outside the product alphabet; otherwise the product
move determined by which components enable the event. -/
def superTrans (P E : DES) (V : Finset Nat) (q e : Nat) : Int :=
  if q ∉ V ∨ (P.events ||| E.events).testBit e = false then -1
  else
    let qx := q % P.S
    let qy := q / P.S
    let inx := P.containsTrans qx e
    let iny := E.containsTrans qy e
    let inBoth := P.events &&& E.events
    let onlyP := P.events ^^^ inBoth
    let onlyE := E.events ^^^ inBoth
    if ¬((inx = true ∧ iny = true) ∨ (inx = true ∧ onlyP.testBit e = true) ∨
        (iny = true ∧ onlyE.testBit e = true)) then -1
    else if inx = true ∧ iny = true then
      E.trans qy e * (P.S : Int) + P.trans qx e
    else if inx = true then (qy : Int) * (P.S : Int) + P.trans qx e
    else E.trans qy e * (P.S : Int) + (qx : Int)

/-- SuperProxy::containstrans_impl: false when q is not surviving or the
event is outside the product alphabet; otherwise the product enabledness
condition. -/
def superContains (P E : DES) (V : Finset Nat) (q e : Nat) : Bool :=
  if q ∉ V ∨ (P.events ||| E.events).testBit e = false then false
  else
    let inx := P.containsTrans (q % P.S) e
    let iny := E.containsTrans (q / P.S) e
    let inBoth := P.events &&& E.events
    let onlyP := P.events ^^^ inBoth
    let onlyE := E.events ^^^ inBoth
    (inx && iny) || (inx && onlyP.testBit e) || (iny && onlyE.testBit e)

/-- Modelled from the spec: the projection triplets of synchronizeStage2
(section 4.4 phase 3, the function itself is not among the sources) —
the surviving states sorted ascending, and for each surviving state and
each enabled event whose successor also survives, a triplet of the two
ranks labelled with the event bit. -/
def projTriplets (N : Nat) (P E : DES) (V : Finset Nat) : List (Nat × Nat × Nat) :=
  let vs := ascList (P.S * E.S) V
  vs.flatMap (fun q =>
    (List.range N).filterMap (fun e =>
      let t := vpTrans P E q e
      if t ≠ -1 ∧ t.toNat ∈ V then some (vs.indexOf q, vs.indexOf t.toNat, 2 ^ e)
      else none))

/-- SuperProxy::operator DESystem: the surviving states are sorted and
projected (stage 2, spec-modelled: the initial and marked virtual states
are carried over as ranks), a default DESystem is built, both its
matrices are resized to the surviving count — which leaves them empty,
an Eigen resize discards all entries including the default-constructed
identity — and only graph_ is then filled from the triplets, so the
boolean shadow of the conversion result is identically zero. -/
def superToDES (N : Nat) (P E : DES) (V : Finset Nat) : DES :=
  let vs := ascList (P.S * E.S) V
  { S := V.card
    init := vs.indexOf (E.init * P.S + P.init)
    marked := (((P.marked ×ˢ E.marked).image (fun p => p.2 * P.S + p.1)).filter
        (fun q => q ∈ V)).image (fun q => vs.indexOf q)
    graph := fun a b => setFromTripletsU (projTriplets N P E V) a b
    bitGraph := fun _ _ => false
    statesEvents := fun _ => 0
    invStatesEvents := fun _ => 0
    events := P.events ||| E.events }

/-!  Concrete systems used as test inputs and witnesses.  -/

/-- The second system of tests/basics.cpp, as listed in the spec
(Scenario B): 4 states, alphabet a = 0, b = 1, g = 2, initial 0, marked
0 and 2, transitions (0,0,a), (0,2,g), (1,1,b), (2,1,g), (2,2,b),
(3,1,a), (3,2,a). -/
def scenB : DES :=
  (((((((DES.new 4 0 {0, 2}).setTrans 0 0 0).setTrans 0 2 2).setTrans 1 1 1).setTrans
        2 1 2).setTrans 2 2 1).setTrans 3 1 0).setTrans 3 2 0

/-- A three-state system with one transition 0 -> 1 on event 0, initial
0, marked 1; its trim part is the two states 0 and 1. -/
def oneEdge : DES :=
  (DES.new 3 0 {1}).setTrans 0 1 0

/-- A three-state system with no transitions, initial 2, marked 2; its
only trim state is state 2 itself. -/
def soloInit : DES :=
  DES.new 3 2 {2}

/-- A two-state plant and specification with transitions 0 -> 1 and
1 -> 1, both on event 0. -/
def twoChain : DES :=
  ((DES.new 2 0 {1}).setTrans 0 1 0).setTrans 1 1 0

/-- The Scenario D plant: one state with a self-loop on event 0. -/
def plantD : DES :=
  (DES.new 1 0 {0}).setTrans 0 0 0

/-- The Scenario D specification: one state, no transitions. -/
def specD : DES :=
  DES.new 1 0 {0}

/-- Forward reachability along the labelled graph: the closure of the
initial state under outgoing transitions (a cell with a non-empty label
is an edge). -/
inductive Reach (A : DES) : Nat → Prop where
  | start : Reach A A.init
  | step {i j : Nat} : Reach A i → A.graph i j ≠ 0 → Reach A j

/-- The property established for a state when findRemovedStates_ keeps
it: no event uncontrollable-in-plant is enabled by the plant yet
disabled in the virtual product. -/
def GoodSt (N : Nat) (P E : DES) (pnc : Nat) (q : Nat) : Prop :=
  ∀ e, e < N → pnc.testBit e = true → P.trans (q % P.S) e ≠ -1 →
    vpTrans P E q e ≠ -1

/-!  Helper lemmas.  -/

theorem testBit_foldl_lor {e : Nat} :
    ∀ (l : List Nat) (m : Nat),
      ((l.foldl (fun acc ev => acc ||| 2 ^ ev) m).testBit e = true ↔
        m.testBit e = true ∨ e ∈ l) := by
  intro l
  induction l with
  | nil => intro m; simp
  | cons a l ih =>
      intro m
      simp only [List.foldl_cons, ih, Nat.testBit_lor, Bool.or_eq_true,
        List.mem_cons]
      constructor
      · rintro (⟨h | h⟩ | h)
        · exact Or.inl h
        · refine Or.inr (Or.inl ?_)
          rcases eq_or_ne a e with rfl | hne
          · rfl
          · rw [Nat.testBit_two_pow_of_ne hne] at h; exact absurd h (by simp)
        · exact Or.inr (Or.inr h)
      · rintro (h | rfl | h)
        · exact Or.inl (Or.inl h)
        · exact Or.inl (Or.inr Nat.testBit_two_pow_self)
        · exact Or.inr h

theorem pncMask_testBit_events {P : DES} {U : Finset Nat} {e : Nat}
    (h : (pncMask P U).testBit e = true) : P.events.testBit e = true := by
  unfold pncMask at h
  rcases (testBit_foldl_lor _ 0).mp h with h0 | hmem
  · simp at h0
  · exact (List.mem_filter.mp hmem).2

theorem trans_ne_none {A : DES} {q e : Nat}
    (hc : (A.statesEvents q).testBit e = true)
    (hex : ∃ j, j < A.S ∧ (A.graph q j).testBit e = true) :
    A.trans q e ≠ -1 := by
  unfold DES.trans
  rw [hc]
  simp only [Bool.true_eq_false, if_false]
  obtain ⟨j, hj, hb⟩ := hex
  have hsome : ((List.range A.S).find? (fun j => (A.graph q j).testBit e)).isSome := by
    rw [List.find?_isSome]
    exact ⟨j, List.mem_range.mpr hj, hb⟩
  obtain ⟨j2, hj2⟩ := Option.isSome_iff_exists.mp hsome
  rw [hj2]
  show (j2 : Int) ≠ -1
  omega

theorem superTrans_eq_vpTrans {P E : DES} {V : Finset Nat} {q e : Nat}
    (hV : q ∈ V) (hPe : P.events.testBit e = true)
    (hEw : (E.statesEvents (q / P.S)).testBit e = true → E.events.testBit e = true) :
    superTrans P E V q e = vpTrans P E q e := by
  have hor : (P.events ||| E.events).testBit e = true := by
    rw [Nat.testBit_lor, hPe, Bool.true_or]
  by_cases hEe : E.events.testBit e = true
  · have hb : (P.events &&& E.events).testBit e = true := by
      rw [Nat.testBit_land, hPe, hEe]; rfl
    have hop : (P.events ^^^ (P.events &&& E.events)).testBit e = false := by
      rw [Nat.testBit_xor, hPe, hb]; rfl
    have hoe : (E.events ^^^ (P.events &&& E.events)).testBit e = false := by
      rw [Nat.testBit_xor, hEe, hb]; rfl
    by_cases hx : P.containsTrans (q % P.S) e = true <;>
      by_cases hy : E.containsTrans (q / P.S) e = true <;>
        simp [superTrans, vpTrans, hV, hor, hb, hop, hoe, hx, hy]
  · have hEf : E.events.testBit e = false := by simpa using hEe
    have hb : (P.events &&& E.events).testBit e = false := by
      rw [Nat.testBit_land, hPe, hEf]; rfl
    have hop : (P.events ^^^ (P.events &&& E.events)).testBit e = true := by
      rw [Nat.testBit_xor, hPe, hb]; rfl
    have hoe : (E.events ^^^ (P.events &&& E.events)).testBit e = false := by
      rw [Nat.testBit_xor, hEf, hb]; rfl
    have hy : E.containsTrans (q / P.S) e = false := by
      rcases Bool.eq_false_or_eq_true (E.containsTrans (q / P.S) e) with h | h
      · exact absurd (hEw h) (by simp [hEf])
      · exact h
    by_cases hx : P.containsTrans (q % P.S) e = true <;>
      simp [superTrans, vpTrans, hV, hor, hb, hop, hoe, hx, hy]

theorem foldl_erase_subset :
    ∀ (l : List Nat) (V : Finset Nat),
      (l.foldl (fun v p => v.erase p) V) ⊆ V := by
  intro l
  induction l with
  | nil => intro V; simp
  | cons a l ih =>
      intro V
      exact (ih (V.erase a)).trans (Finset.erase_subset a V)

theorem removeBad_V_subset {N : Nat} {P E : DES} {nc : Nat} :
    ∀ (fuel : Nat) (st : List Nat) (R V R2 V2 : Finset Nat),
      removeBad N P E nc fuel st R V = some (R2, V2) → V2 ⊆ V := by
  intro fuel
  induction fuel with
  | zero => intro st R V R2 V2 h; simp [removeBad] at h
  | succ fuel ih =>
      intro st R V R2 V2 h
      cases st with
      | nil =>
          simp only [removeBad, Option.some.injEq, Prod.mk.injEq] at h
          rw [← h.2]
      | cons q st =>
          simp only [removeBad] at h
          exact (ih _ _ _ _ _ h).trans (foldl_erase_subset _ V)

theorem badState_false_good {N : Nat} {P E : DES} {pnc : Nat} {q : Nat}
    (h : badState N P E pnc q = false) : GoodSt N P E pnc q := by
  intro e he hU hPt hvp
  have hmem : e ∈ List.range N := List.mem_range.mpr he
  have hfalse := List.any_eq_false.mp h e hmem
  rw [hU] at hfalse
  have htrue : (true && decide (P.trans (q % P.S) e ≠ -1) &&
      decide (vpTrans P E q e = -1)) = true := by
    rw [decide_eq_true hPt, decide_eq_true hvp]
    rfl
  exact hfalse htrue

theorem phase1Loop_good {N : Nat} {P E : DES} {pnc nc : Nat} :
    ∀ (fuel : Nat) (f : List Nat) (R V Vf : Finset Nat),
      (∀ x ∈ V, GoodSt N P E pnc x) →
      phase1Loop N P E pnc nc fuel f R V = some Vf →
      ∀ x ∈ Vf, GoodSt N P E pnc x := by
  intro fuel
  induction fuel with
  | zero => intro f R V Vf _ h; simp [phase1Loop] at h
  | succ fuel ih =>
      intro f R V Vf hV h
      cases f with
      | nil =>
          simp only [phase1Loop, Option.some.injEq] at h
          rw [← h]
          exact hV
      | cons q f =>
          simp only [phase1Loop] at h
          by_cases hskip : q ∈ R ∨ q ∈ V
          · rw [if_pos hskip] at h
            exact ih f R V Vf hV h
          · rw [if_neg hskip] at h
            by_cases hbad : badState N P E pnc q = true
            · rw [if_pos hbad] at h
              cases hrb : removeBad N P E nc fuel [q] (insert q R) V with
              | none => rw [hrb] at h; simp at h
              | some RV =>
                  rw [hrb] at h
                  have hsub : RV.2 ⊆ V :=
                    removeBad_V_subset fuel [q] (insert q R) V RV.1 RV.2
                      (by rw [hrb])
                  exact ih f RV.1 RV.2 Vf (fun x hx => hV x (hsub hx)) h
            · rw [if_neg hbad] at h
              have hgq : GoodSt N P E pnc q :=
                badState_false_good (Bool.eq_false_iff.mpr hbad)
              refine ih _ R (insert q V) Vf ?_ h
              intro x hx
              rcases Finset.mem_insert.mp hx with rfl | hx2
              · exact hgq
              · exact hV x hx2

/-- C1: after phase 1 of supC (SuperProxy::findRemovedStates_) completes
on plant P, specification E and uncontrollable set U, every surviving
virtual state q and every uncontrollable event e restricted to the plant
alphabet satisfy: if the plant enables e at the plant component of q,
the supervisor transition at q under e is not the -1 sentinel.  The
hypotheses are the documented automaton invariants of the plant and the
specification (the forward summary is covered by the rows, and per-state
summaries are covered by the global event set). -/
theorem supC_phase1_controllability (N : Nat) (P E : DES) (U : Finset Nat)
    (fuel : Nat) (V : Finset Nat) (hS : 0 < P.S)
    (hwfF : ∀ q, q < P.S → ∀ e, e < N →
      (P.statesEvents q).testBit e = true →
      ∃ j, j < P.S ∧ (P.graph q j).testBit e = true)
    (hwfE : ∀ y e, (E.statesEvents y).testBit e = true → E.events.testBit e = true)
    (hrun : phase1 N P E U fuel = some V)
    (q : Nat) (hq : q ∈ V) (e : Nat) (he : e < N)
    (hU : (pncMask P U).testBit e = true)
    (hP : P.containsTrans (q % P.S) e = true) :
    superTrans P E V q e ≠ -1 := by
  have hgood : GoodSt N P E (pncMask P U) q :=
    phase1Loop_good fuel [E.init * P.S + P.init] ∅ ∅ V (by simp) hrun q hq
  have hPe : P.events.testBit e = true := pncMask_testBit_events hU
  have hPt : P.trans (q % P.S) e ≠ -1 :=
    trans_ne_none hP (hwfF (q % P.S) (Nat.mod_lt q hS) e he hP)
  have hvp : vpTrans P E q e ≠ -1 := hgood e he hU hPt
  rw [superTrans_eq_vpTrans hq hPe (hwfE (q / P.S) e)]
  exact hvp

theorem mem_bfsStep {A : DES} {x : Finset Nat} {d : Nat} :
    d ∈ bfsStep A x ↔ d < A.S ∧ ∃ s ∈ x, A.bitGraph d s = true := by
  simp [bfsStep]

theorem bfsStep_subset_range (A : DES) (x : Finset Nat) :
    bfsStep A x ⊆ Finset.range A.S :=
  Finset.filter_subset _ _

theorem subset_bfsStep {A : DES}
    (hbg : ∀ d, d < A.S → ∀ s, s < A.S →
      (A.bitGraph d s = true ↔ (A.graph s d ≠ 0 ∨ d = s)))
    {x : Finset Nat} (hx : x ⊆ Finset.range A.S) : x ⊆ bfsStep A x := by
  intro d hd
  have hdS : d < A.S := Finset.mem_range.mp (hx hd)
  rw [mem_bfsStep]
  exact ⟨hdS, d, hd, (hbg d hdS d hdS).mpr (Or.inr rfl)⟩

theorem bfsStep_reach {A : DES}
    (hbg : ∀ d, d < A.S → ∀ s, s < A.S →
      (A.bitGraph d s = true ↔ (A.graph s d ≠ 0 ∨ d = s)))
    {x : Finset Nat} (hx : x ⊆ Finset.range A.S)
    (hr : ∀ q ∈ x, Reach A q) : ∀ q ∈ bfsStep A x, Reach A q := by
  intro q hq
  rw [mem_bfsStep] at hq
  obtain ⟨hqS, s, hs, hb⟩ := hq
  have hsS : s < A.S := Finset.mem_range.mp (hx hs)
  rcases (hbg q hqS s hsS).mp hb with h | rfl
  · exact Reach.step (hr s hs) h
  · exact hr q hs

theorem bfsLoop_subset_range {A : DES} :
    ∀ (fuel : Nat) (x : Finset Nat) (prev : Nat), x ⊆ Finset.range A.S →
      bfsLoop A fuel x prev ⊆ Finset.range A.S := by
  intro fuel
  induction fuel with
  | zero => intro x prev hx; simpa [bfsLoop] using hx
  | succ fuel ih =>
      intro x prev hx
      simp only [bfsLoop]
      by_cases hb : (bfsStep A x).card = prev
      · rw [if_pos hb]; exact bfsStep_subset_range A x
      · rw [if_neg hb]; exact ih _ _ (bfsStep_subset_range A x)

theorem bfsLoop_reach {A : DES}
    (hbg : ∀ d, d < A.S → ∀ s, s < A.S →
      (A.bitGraph d s = true ↔ (A.graph s d ≠ 0 ∨ d = s))) :
    ∀ (fuel : Nat) (x : Finset Nat) (prev : Nat), x ⊆ Finset.range A.S →
      (∀ q ∈ x, Reach A q) → ∀ q ∈ bfsLoop A fuel x prev, Reach A q := by
  intro fuel
  induction fuel with
  | zero => intro x prev _ hr; simpa [bfsLoop] using hr
  | succ fuel ih =>
      intro x prev hx hr
      simp only [bfsLoop]
      by_cases hb : (bfsStep A x).card = prev
      · rw [if_pos hb]; exact bfsStep_reach hbg hx hr
      · rw [if_neg hb]
        exact ih _ _ (bfsStep_subset_range A x) (bfsStep_reach hbg hx hr)

theorem bfsLoop_fix_stable {A : DES} :
    ∀ (fuel : Nat) (x : Finset Nat) (prev : Nat), bfsStep A x = x →
      bfsLoop A fuel x prev = x := by
  intro fuel
  induction fuel with
  | zero => intro x prev _; rfl
  | succ fuel ih =>
      intro x prev hfix
      simp only [bfsLoop, hfix]
      by_cases hb : x.card = prev
      · rw [if_pos hb]
      · rw [if_neg hb]; exact ih _ _ hfix

theorem bfsLoop_fixpoint {A : DES}
    (hbg : ∀ d, d < A.S → ∀ s, s < A.S →
      (A.bitGraph d s = true ↔ (A.graph s d ≠ 0 ∨ d = s))) :
    ∀ (fuel : Nat) (x : Finset Nat) (prev : Nat), x ⊆ Finset.range A.S →
      A.init ∈ x → (prev = x.card ∨ prev < x.card) → A.S + 1 ≤ fuel + x.card →
      bfsStep A (bfsLoop A fuel x prev) = bfsLoop A fuel x prev ∧
        A.init ∈ bfsLoop A fuel x prev := by
  intro fuel
  induction fuel with
  | zero =>
      intro x prev hx _ _ hfuel
      exfalso
      have hc := Finset.card_le_card hx
      rw [Finset.card_range] at hc
      omega
  | succ fuel ih =>
      intro x prev hx hinit hprev hfuel
      simp only [bfsLoop]
      have hxy : x ⊆ bfsStep A x := subset_bfsStep hbg hx
      have hyr : bfsStep A x ⊆ Finset.range A.S := bfsStep_subset_range A x
      by_cases hb : (bfsStep A x).card = prev
      · rw [if_pos hb]
        rcases hprev with hp | hp
        · have hcard : (bfsStep A x).card ≤ x.card := by omega
          have hxe : x = bfsStep A x := Finset.eq_of_subset_of_card_le hxy hcard
          exact ⟨by rw [← hxe]; exact hxe.symm, hxy hinit⟩
        · exfalso
          have hc := Finset.card_le_card hxy
          omega
      · rw [if_neg hb]
        by_cases hxe : bfsStep A x = x
        · rw [bfsLoop_fix_stable fuel (bfsStep A x) (bfsStep A x).card
            (by rw [hxe]; exact hxe)]
          exact ⟨by rw [hxe]; exact hxe, hxy hinit⟩
        · have hss : x ⊂ bfsStep A x :=
            Finset.ssubset_iff_subset_ne.mpr ⟨hxy, fun h => hxe h.symm⟩
          have hlt : x.card < (bfsStep A x).card := Finset.card_lt_card hss
          exact ih (bfsStep A x) (bfsStep A x).card hyr (hxy hinit) (Or.inl rfl)
            (by omega)

/-- C5: for every automaton whose boolean shadow is stored in the
B-transposed-plus-identity form built by the public constructors and
insertion (and whose labelled graph lies within its S-by-S bounds),
AccessiblePart returns exactly the least set of states containing the
initial state and closed under outgoing transitions. -/
theorem accessiblePart_least (A : DES)
    (hq0 : A.init < A.S)
    (hbg : ∀ d, d < A.S → ∀ s, s < A.S →
      (A.bitGraph d s = true ↔ (A.graph s d ≠ 0 ∨ d = s)))
    (hrange : ∀ i j, A.graph i j ≠ 0 → i < A.S ∧ j < A.S) :
    A.init ∈ A.accessiblePart ∧
      (∀ i ∈ A.accessiblePart, ∀ j, A.graph i j ≠ 0 → j ∈ A.accessiblePart) ∧
      (∀ T : Finset Nat, A.init ∈ T →
        (∀ i ∈ T, ∀ j, A.graph i j ≠ 0 → j ∈ T) → A.accessiblePart ⊆ T) := by
  have hS : ¬A.S = 0 := by omega
  have hax : ({A.init} : Finset Nat) ⊆ Finset.range A.S := by
    intro z hz
    rw [Finset.mem_singleton] at hz
    subst hz
    exact Finset.mem_range.mpr hq0
  have hacc : A.accessiblePart = bfsLoop A A.S {A.init} 0 := by
    unfold DES.accessiblePart
    rw [if_neg hS]
  obtain ⟨hfix, hinit⟩ :=
    bfsLoop_fixpoint hbg A.S {A.init} 0 hax (Finset.mem_singleton_self _)
      (Or.inr (by simp)) (by simp)
  rw [hacc]
  refine ⟨hinit, ?_, ?_⟩
  · intro i hi j hij
    have hjS : j < A.S := (hrange i j hij).2
    have hiS : i < A.S :=
      Finset.mem_range.mp (bfsLoop_subset_range A.S {A.init} 0 hax hi)
    have hmem : j ∈ bfsStep A (bfsLoop A A.S {A.init} 0) := by
      rw [mem_bfsStep]
      exact ⟨hjS, i, hi, (hbg j hjS i hiS).mpr (Or.inl hij)⟩
    rwa [hfix] at hmem
  · intro T hT hTc
    have hreach : ∀ z, Reach A z → z ∈ T := by
      intro z hz
      induction hz with
      | start => exact hT
      | step h1 h2 ih => exact hTc _ ih _ h2
    intro q hq
    exact hreach q
      (bfsLoop_reach hbg A.S {A.init} 0 hax
        (by
          intro z hz
          rw [Finset.mem_singleton] at hz
          subst hz
          exact Reach.start)
        q hq)

theorem wfRange_new (S q0 : Nat) (M : Finset Nat) :
    ∀ i j, (DES.new S q0 M).graph i j ≠ 0 →
      i < (DES.new S q0 M).S ∧ j < (DES.new S q0 M).S :=
  fun _ _ h => absurd rfl h

theorem wfRange_setTrans {A : DES} (a b e : Nat) (ha : a < A.S) (hb : b < A.S)
    (hA : ∀ i j, A.graph i j ≠ 0 → i < A.S ∧ j < A.S) :
    ∀ i j, (A.setTrans a b e).graph i j ≠ 0 →
      i < (A.setTrans a b e).S ∧ j < (A.setTrans a b e).S := by
  intro i j h
  show i < A.S ∧ j < A.S
  have hg : (A.setTrans a b e).graph i j =
      if i = a ∧ j = b then A.graph a b ||| 2 ^ e else A.graph i j := rfl
  rw [hg] at h
  by_cases hc : i = a ∧ j = b
  · obtain ⟨rfl, rfl⟩ := hc
    exact ⟨ha, hb⟩
  · rw [if_neg hc] at h
    exact hA i j h

theorem wfE_new (S q0 : Nat) (M : Finset Nat) :
    ∀ y e, ((DES.new S q0 M).statesEvents y).testBit e = true →
      (DES.new S q0 M).events.testBit e = true := by
  intro y e h
  rw [show (DES.new S q0 M).statesEvents y = 0 from rfl, Nat.zero_testBit] at h
  exact absurd h (by simp)

theorem wfE_setTrans {A : DES} (a b ev : Nat)
    (hA : ∀ y e, (A.statesEvents y).testBit e = true → A.events.testBit e = true) :
    ∀ y e, ((A.setTrans a b ev).statesEvents y).testBit e = true →
      (A.setTrans a b ev).events.testBit e = true := by
  intro y e h
  show (A.events ||| 2 ^ ev).testBit e = true
  rw [Nat.testBit_lor]
  have hse : (A.setTrans a b ev).statesEvents y =
      if y = a then A.statesEvents a ||| 2 ^ ev else A.statesEvents y := rfl
  rw [hse] at h
  by_cases hy : y = a
  · rw [if_pos hy, Nat.testBit_lor] at h
    rcases Bool.or_eq_true_iff.mp h with h1 | h1
    · rw [hA a e h1]
      rfl
    · rw [h1]
      simp
  · rw [if_neg hy] at h
    rw [hA y e h]
    rfl

/-- C1 witness: the controllability theorem instantiated on the
two-state chain as both plant and specification, uncontrollable set
containing event 0, at surviving virtual state 0. -/
theorem supC_phase1_controllability_witness :
    0 < twoChain.S ∧
      (∀ q, q < twoChain.S → ∀ e, e < 1 →
        (twoChain.statesEvents q).testBit e = true →
        ∃ j, j < twoChain.S ∧ (twoChain.graph q j).testBit e = true) ∧
      (∀ y e, (twoChain.statesEvents y).testBit e = true →
        twoChain.events.testBit e = true) ∧
      phase1 1 twoChain twoChain {0} 10 = some {3, 0} ∧
      (0 : Nat) ∈ ({3, 0} : Finset Nat) ∧ 0 < 1 ∧
      (pncMask twoChain {0}).testBit 0 = true ∧
      twoChain.containsTrans (0 % twoChain.S) 0 = true ∧
      superTrans twoChain twoChain {3, 0} 0 0 ≠ -1 := by
  have hwfE : ∀ y e, (twoChain.statesEvents y).testBit e = true →
      twoChain.events.testBit e = true :=
    wfE_setTrans 1 1 0 (wfE_setTrans 0 1 0 (wfE_new 2 0 {1}))
  have hrun : phase1 1 twoChain twoChain {0} 10 = some {3, 0} := rfl
  refine ⟨by decide, by decide, hwfE, hrun, by decide, by decide, by decide,
    by decide, ?_⟩
  exact supC_phase1_controllability 1 twoChain twoChain {0} 10 {3, 0}
    (by decide) (by decide) hwfE hrun 0 (by decide) 0 (by decide) (by decide)
    (by decide)

/-- C2 (code bug): the concrete automaton obtained by converting a
supervisor proxy has a non-empty labelled-graph entry while its boolean
shadow is identically zero — operator DESystem resizes the
default-constructed bit_graph_ (which empties it) and fills only graph_
from the projection triplets, violating the Gamma-nonempty iff
shadow-nonzero invariant. -/
theorem superToDES_shadow_empty :
    phase1 1 twoChain twoChain ∅ 10 = some {3, 0} ∧
    (superToDES 1 twoChain twoChain {3, 0}).graph 0 1 ≠ 0 ∧
    (∀ a, a < (superToDES 1 twoChain twoChain {3, 0}).S →
      ∀ b, b < (superToDES 1 twoChain twoChain {3, 0}).S →
        (superToDES 1 twoChain twoChain {3, 0}).bitGraph a b = false) :=
  ⟨rfl, by decide, by decide⟩

/-- C3 (code bug): after Trim on the three-state single-edge automaton
(whose trim part keeps states 0 and 1), the surviving edge 0 -> 1 keeps
its label and the forward summary of state 0 is correct, but the inverse
summary of state 1 is empty: the reset of row 1 inside Trim wipes the
in-edge contribution recorded while row 0 was processed, so the
F-inverse invariant fails. -/
theorem trim_inv_summary_violation :
    oneEdge.trim.graph 0 1 = 1 ∧
    oneEdge.trim.statesEvents 0 = 1 ∧
    oneEdge.trim.invStatesEvents 1 = 0 :=
  ⟨by decide, by decide, by decide⟩

/-- C4 (code bug): on the three-state automaton whose only trim state is
its initial state 2, Trim correctly replaces the marked set by its image
under the renumbering, but leaves init_state_ at the old index 2, which
is not the renumbered value 0 and is even outside the new one-state
range. -/
theorem trim_initial_state_not_renumbered :
    soloInit.trimStates = {2} ∧ soloInit.trim.S = 1 ∧
    soloInit.trim.marked = {0} ∧ soloInit.trim.init = 2 :=
  ⟨by decide, by decide, by decide, by decide⟩

/-- C5 witness: the accessible-part characterisation instantiated on the
three-state single-edge automaton. -/
theorem accessiblePart_least_witness :
    oneEdge.init < oneEdge.S ∧
      (∀ d, d < oneEdge.S → ∀ s, s < oneEdge.S →
        (oneEdge.bitGraph d s = true ↔ (oneEdge.graph s d ≠ 0 ∨ d = s))) ∧
      (oneEdge.init ∈ oneEdge.accessiblePart ∧
        (∀ i ∈ oneEdge.accessiblePart, ∀ j, oneEdge.graph i j ≠ 0 →
          j ∈ oneEdge.accessiblePart) ∧
        (∀ T : Finset Nat, oneEdge.init ∈ T →
          (∀ i ∈ T, ∀ j, oneEdge.graph i j ≠ 0 → j ∈ T) →
          oneEdge.accessiblePart ⊆ T)) :=
  ⟨by decide, by decide,
    accessiblePart_least oneEdge (by decide) (by decide)
      (wfRange_setTrans 0 1 0 (by decide) (by decide) (wfRange_new 3 0 {1}))⟩

/-- C6 counterexample: on the two-state chain composed with itself, the
virtual state 1 pairs plant state 1 with specification state 0; the
shared event 0 is enabled in both components, yet because state 1 is not
a surviving virtual state, containstrans_impl reports the transition
disabled and trans_impl returns the -1 sentinel instead of the product
successor — refuting the claim as stated for non-surviving states. -/
theorem superTrans_nonsurviving_cex :
    phase1 1 twoChain twoChain ∅ 10 = some {3, 0} ∧
    (1 : Nat) ∉ ({3, 0} : Finset Nat) ∧
    twoChain.containsTrans 1 0 = true ∧
    twoChain.containsTrans 0 0 = true ∧
    (twoChain.events &&& twoChain.events).testBit 0 = true ∧
    superContains twoChain twoChain {3, 0} 1 0 = false ∧
    superTrans twoChain twoChain {3, 0} 1 0 = -1 :=
  ⟨rfl, by decide, by decide, by decide, by decide, by decide, by decide⟩

/-- C6 (amended): for a surviving virtual state q and a shared event e,
the supervisor transition is enabled iff both components enable e, and
when both do, the successor is E.trans(y,e) * S_P + P.trans(x,e);
otherwise trans returns the -1 sentinel. -/
theorem superTrans_shared_on_survivors (P E : DES) (V : Finset Nat) (q e : Nat)
    (hV : q ∈ V) (hPe : P.events.testBit e = true)
    (hEe : E.events.testBit e = true) :
    (superContains P E V q e =
      (P.containsTrans (q % P.S) e && E.containsTrans (q / P.S) e)) ∧
    (P.containsTrans (q % P.S) e = true → E.containsTrans (q / P.S) e = true →
      superTrans P E V q e =
        E.trans (q / P.S) e * (P.S : Int) + P.trans (q % P.S) e) ∧
    (¬(P.containsTrans (q % P.S) e = true ∧
        E.containsTrans (q / P.S) e = true) →
      superTrans P E V q e = -1) := by
  have hor : (P.events ||| E.events).testBit e = true := by
    rw [Nat.testBit_lor, hPe]
    rfl
  have hb : (P.events &&& E.events).testBit e = true := by
    rw [Nat.testBit_land, hPe, hEe]
    rfl
  have hop : (P.events ^^^ (P.events &&& E.events)).testBit e = false := by
    rw [Nat.testBit_xor, hPe, hb]
    rfl
  have hoe : (E.events ^^^ (P.events &&& E.events)).testBit e = false := by
    rw [Nat.testBit_xor, hEe, hb]
    rfl
  refine ⟨?_, ?_, ?_⟩
  · by_cases hx : P.containsTrans (q % P.S) e = true <;>
      by_cases hy : E.containsTrans (q / P.S) e = true <;>
        simp [superContains, hV, hor, hop, hoe, hx, hy]
  · intro hx hy
    simp [superTrans, hV, hor, hop, hoe, hx, hy]
  · intro hxy
    rcases Bool.eq_false_or_eq_true (P.containsTrans (q % P.S) e) with hx | hx <;>
      rcases Bool.eq_false_or_eq_true (E.containsTrans (q / P.S) e) with hy | hy
    · exact absurd ⟨hx, hy⟩ hxy
    all_goals simp [superTrans, hV, hor, hop, hoe, hx, hy]

/-- C6 amended-theorem witness: instantiated at surviving virtual state
3 of the two-state chain composed with itself, on shared event 0. -/
theorem superTrans_shared_on_survivors_witness :
    (3 : Nat) ∈ ({3, 0} : Finset Nat) ∧
    twoChain.events.testBit 0 = true ∧
    ((superContains twoChain twoChain {3, 0} 3 0 =
        (twoChain.containsTrans (3 % twoChain.S) 0 &&
          twoChain.containsTrans (3 / twoChain.S) 0)) ∧
      (twoChain.containsTrans (3 % twoChain.S) 0 = true →
        twoChain.containsTrans (3 / twoChain.S) 0 = true →
        superTrans twoChain twoChain {3, 0} 3 0 =
          twoChain.trans (3 / twoChain.S) 0 * (twoChain.S : Int) +
            twoChain.trans (3 % twoChain.S) 0) ∧
      (¬(twoChain.containsTrans (3 % twoChain.S) 0 = true ∧
          twoChain.containsTrans (3 / twoChain.S) 0 = true) →
        superTrans twoChain twoChain {3, 0} 3 0 = -1)) :=
  ⟨by decide, by decide,
    superTrans_shared_on_survivors twoChain twoChain {3, 0} 3 0 (by decide)
      (by decide) (by decide)⟩

/-- C7 counterexample: phase 1 on the Scenario D input — one-state plant
with a self-loop on uncontrollable event 0 and a one-state specification
with no transitions — does not return the empty surviving set the claim
asserts. -/
theorem scenD_not_empty_cex :
    phase1 2 plantD specD {0} 10 ≠ some (∅ : Finset Nat) := by
  intro h
  have h2 : (phase1 2 plantD specD {0} 10).getD {5} = ∅ := by
    rw [h]
    rfl
  exact absurd h2 (by decide)

/-- C7 (amended): on the Scenario D input the specification automaton
has an empty event set, so the uncontrollable self-loop event is
only-in-plant and never disabled by the virtual product: the single
virtual state 0 survives phase 1 and the projected supervisor has one
state, not zero. -/
theorem scenD_one_state :
    phase1 2 plantD specD {0} 10 = some ({0} : Finset Nat) ∧
    (superToDES 2 plantD specD {0}).S = 1 :=
  ⟨rfl, by decide⟩

/-- C8 (code bug): Trim is not idempotent — trimming the three-state
single-edge automaton yields two states, but its rebuilt boolean shadow
lacks the identity diagonal, so a second Trim computes empty accessible
and coaccessible parts and collapses the automaton to zero states. -/
theorem trim_twice_not_isomorphic :
    oneEdge.trim.S = 2 ∧ oneEdge.trim.trim.S = 0 :=
  ⟨by decide, by decide⟩

/-- C9: the literal Scenario B automaton has accessible part {0,1,2},
coaccessible part {0,2,3}, trim states {0,2}, and exactly 2 states after
Trim. -/
theorem scenB_reductions :
    scenB.accessiblePart = {0, 1, 2} ∧
    scenB.coaccessiblePart = {0, 2, 3} ∧
    scenB.trimStates = {0, 2} ∧
    scenB.trim.S = 2 :=
  ⟨by decide, by decide, by decide, by decide⟩

/-- C10: when the inverse event summary of q lacks e, InvTrans returns
the empty state array whatever the state of the inverse-graph cache —
in particular it is safe with the cache unallocated (none), since the
early return precedes the cache dereference. -/
theorem invTrans_safe_unallocated (A : DES) (q e : Nat)
    (h : A.containsInvTrans q e = false) :
    ∀ og : Option (Nat → Nat → Nat), A.invTrans og q e = some [] := by
  intro og
  unfold DES.invTrans
  rw [h]
  rfl

/-- C10 witness: state 0 of the single-edge automaton has no inverse
transition on event 0, and InvTrans with an unallocated inverse graph
returns the empty array. -/
theorem invTrans_safe_unallocated_witness :
    oneEdge.containsInvTrans 0 0 = false ∧
    oneEdge.invTrans none 0 0 = some [] :=
  ⟨by decide, invTrans_safe_unallocated oneEdge 0 0 (by decide) none⟩
